import Mathlib

/-!
Shallow embedding of the `welch` crate (a Welch periodogram estimator):
`src/lib.rs` together with the rectangular window of `examples/welch.rs`.

Modelling conventions:
* `f64` arithmetic is idealized as exact arithmetic in a linear ordered
  field `α` equipped with a floor function; all definitions and theorems
  are polymorphic in `α`, and witnesses instantiate `α := ℚ` so that the
  definitions evaluate by `decide`.
* `usize` is `ℕ`.  Rust's saturating float-to-`usize` casts are modelled
  by `Int.toNat` composed with the appropriate rounding (see
  `truncToUsize` / `roundToUsize`).
* The Rust slice/iterator adapters `windows`, `step_by` and `chunks` are
  embedded as the list functions `windowsList`, `stepBy` and `chunks`.
  Rust panics (`windows(0)`, `step_by(0)`, `chunks(0)`, `usize`
  underflow) have no counterpart in the total Lean functions; theorems
  carry the corresponding validity hypotheses instead.
* A window variant (the `Window` trait) is represented by its
  constructor-composed-with-`weights` function `W : ℕ → List α`; the
  estimator stores the produced weight sequence, its only observable.
-/

namespace welch

variable {α : Type} [LinearOrderedField α] [FloorRing α]

/-- `f64::trunc` followed by Rust's saturating `as usize` cast.  For
nonnegative finite values `trunc` agrees with `Int.floor`; for negative
values both the Rust cast and `Int.toNat` collapse the result to `0`. -/
def truncToUsize (x : α) : ℕ := (⌊x⌋).toNat

/-- `f64::round` (round half away from zero) followed by the saturating
`as usize` cast; negative results collapse to `0` on both sides. -/
def roundToUsize (x : α) : ℕ :=
  (if 0 ≤ x then ⌊x + 1 / 2⌋ else -⌊-x + 1 / 2⌋).toNat

/-- The free function `segment_size` of `src/lib.rs`:
`(signal_len as f64 / (n_segment as f64 * (1. - overlap) + overlap)).trunc() as usize`. -/
def segment_size (signal_len n_segment : ℕ) (overlap : α) : ℕ :=
  truncToUsize ((signal_len : α) / ((n_segment : α) * (1 - overlap) + overlap))

/-- `num_complex::Complex<f64>` as used by the crate. -/
structure Cx (α : Type) where
  re : α
  im : α
deriving DecidableEq

/-- `Complex::norm_sqr`: `re * re + im * im`. -/
def Cx.norm_sqr [Mul α] [Add α] (z : Cx α) : α := z.re * z.re + z.im * z.im

/-- The `Builder` struct of `src/lib.rs` (the signal reference is
embedded as the list of samples). -/
structure Builder (α : Type) where
  n_segment : ℕ
  overlap : α
  signal : List α

/-- `Builder::new`: defaults `n_segment = 4`, `overlap = 0.5`.  (The
chaining setters `n_segment()` / `overlap()` just replace the
corresponding field and are not separately modelled.) -/
def Builder.new (signal : List α) : Builder α := ⟨4, 1 / 2, signal⟩

/-- The `Welch` struct of `src/lib.rs`.  The `window: W` field is
represented by the weight sequence `W::new(segment_size).weights()`,
which is the only way the struct ever uses it. -/
structure Welch (α : Type) where
  n_segment : ℕ
  overlap : α
  segment_size : ℕ
  signal : List α
  window : List α

/-- `Builder::build::<W>`: computes `l` by the `segment_size` expression
(the body of `build` inlines the very same expression as the free
function `segment_size`) and packs the `Welch` struct, constructing the
window with `W::new(l)`.  No validation of any kind is performed. -/
def Builder.build (b : Builder α) (W : ℕ → List α) : Welch α :=
  let l := segment_size b.signal.length b.n_segment b.overlap
  { n_segment := b.n_segment
    overlap := b.overlap
    segment_size := l
    signal := b.signal
    window := W l }

/-- Rust `slice::windows(l)`: all contiguous subslices of width `l`,
starting at indices `0, 1, …, len - l`.  (Rust panics for `l = 0`;
theorems assume `1 ≤ l`.) -/
def windowsList (l : ℕ) (xs : List β) : List (List β) :=
  (List.range (xs.length + 1 - l)).map fun i => (xs.drop i).take l

/-- Rust `Iterator::step_by(s)`: the first element, then every `s`-th
element after it.  (Rust panics for `s = 0`; theorems assume `1 ≤ s`.) -/
def stepBy (s : ℕ) : List β → List β
  | [] => []
  | x :: xs => x :: stepBy s (xs.drop (s - 1))
termination_by xs => xs.length
decreasing_by simp [List.length_drop]; omega

/-- Rust `slice::chunks(l)`: consecutive chunks of `l` elements, the
last chunk possibly shorter.  (Rust panics for `l = 0`; theorems assume
`1 ≤ l`.) -/
def chunks (l : ℕ) : List β → List (List β)
  | [] => []
  | x :: xs => (x :: xs).take l :: chunks l (xs.drop (l - 1))
termination_by xs => xs.length
decreasing_by simp [List.length_drop]; omega

/-- `Welch::segmenting` of `src/lib.rs`:
`nel = l - (l as f64 * a).round() as usize`, then
`signal.windows(l).step_by(nel)`, each window zipped with the window
weights, multiplied elementwise, embedded as complex values with zero
imaginary part, and flattened. -/
def Welch.segmenting (w : Welch α) : List (Cx α) :=
  let l := w.segment_size
  let a := w.overlap
  let nel := l - roundToUsize ((l : α) * a)
  ((stepBy nel (windowsList l w.signal)).map fun segment =>
    (segment.zip w.window).map fun p => Cx.mk (p.1 * p.2) 0).flatten

/-- `Welch::dft` of `src/lib.rs`.  Modelled from the spec: the forward
FFT plan of the external `rustfft` crate
(`FftPlanner::plan_fft_forward(segment_size)` / `Fft::process`) is not
part of the repository sources; per §4.4 of the spec the transform is an
in-place forward DFT of size `segment_size` applied independently to
each contiguous chunk of `segment_size` elements of the segmented
buffer, and any correct DFT implementation satisfies the contract.  The
per-chunk transform is therefore abstracted as the parameter `F`;
theorems assume it length-preserving where needed. -/
def Welch.dft (w : Welch α) (F : List (Cx α) → List (Cx α)) : List (Cx α) :=
  ((chunks w.segment_size w.segmenting).map F).flatten

/-- `Welch::periogram` of `src/lib.rs`: chunk the transformed buffer by
`segment_size` and fold the chunks into `vec![0.0; segment_size / 2]`,
each step zipping the accumulator with the chunk and adding
`norm_sqr`. -/
def Welch.periogram (w : Welch α) (F : List (Cx α) → List (Cx α)) : List α :=
  let buffer := w.dft F
  let n := w.segment_size / 2
  (chunks w.segment_size buffer).foldl
    (fun a x => (a.zip x).map fun p => p.1 + p.2.norm_sqr)
    (List.replicate n 0)

/-- State-passing reading of the `&self` method call
`welch.periogram()`: the result together with the receiver after the
call.  The receiver is returned unchanged: the method takes `&self`
(shared, immutable borrow) and builds a fresh output vector. -/
def Welch.periogramRun (w : Welch α) (F : List (Cx α) → List (Cx α)) :
    List α × Welch α :=
  (w.periogram F, w)

/-- The rectangular window `One` of `examples/welch.rs`. -/
structure One (α : Type) where
  weights : List α

/-- `One::new(n)`: `weights = vec![1.0; n]`. -/
def One.new [Monoid α] (n : ℕ) : One α := ⟨List.replicate n 1⟩

/-- The window-variant function `W` induced by `One`:
`n ↦ One::new(n).weights()`. -/
def oneWeights [Monoid α] : ℕ → List α := fun n => (One.new n : One α).weights

/-- A concrete validly-configured estimator over `ℚ`, used by the
witnesses: 8 samples, 4 segments, overlap 1/2, rectangular window. -/
def wEx : Welch ℚ := (Builder.mk 4 (1 / 2) [1, 2, 3, 4, 5, 6, 7, 8]).build oneWeights

/-- An invalid configuration (`n_segment = 0`) over `ℚ`: the spec
requires `build` to reject it. -/
def bBad : Builder ℚ := ⟨0, 1 / 2, [1, 2, 3, 4]⟩

/-- The estimator that `build` nevertheless produces from `bBad`. -/
def wBad : Welch ℚ := bBad.build oneWeights

/-- A single-segment configuration over `ℚ`: `n_segment = 1`,
`overlap = 0`. -/
def wOne : Welch ℚ := (Builder.mk 1 0 [1, 2, 3, 4]).build oneWeights

/-! ### Evaluation helpers for the two saturating casts -/

theorem truncToUsize_eq {x : α} {m : ℕ} (h : ⌊x⌋ = (m : ℤ)) :
    truncToUsize x = m := by
  simp [truncToUsize, h]

theorem roundToUsize_eq {x : α} {m : ℕ} (h0 : 0 ≤ x)
    (h : ⌊x + 1 / 2⌋ = (m : ℤ)) : roundToUsize x = m := by
  simp only [roundToUsize, if_pos h0, h, Int.toNat_ofNat]

/-! ### Lemmas about the iterator adapters -/

theorem stepBy_nil (s : ℕ) : stepBy s ([] : List β) = [] := by
  simp [stepBy]

theorem stepBy_cons (s : ℕ) (x : β) (xs : List β) :
    stepBy s (x :: xs) = x :: stepBy s (xs.drop (s - 1)) := by
  simp [stepBy]

theorem stepBy_sublist_mem {s : ℕ} : ∀ {xs : List β} {c : β},
    c ∈ stepBy s xs → c ∈ xs
  | [], c, h => by simp [stepBy_nil] at h
  | x :: xs, c, h => by
    rw [stepBy_cons] at h
    rcases List.mem_cons.mp h with rfl | h
    · exact List.mem_cons_self _ _
    · exact List.mem_cons_of_mem _ (List.drop_subset _ _ (stepBy_sublist_mem h))
termination_by xs => xs.length
decreasing_by simp [List.length_drop]; omega

theorem stepBy_length {s : ℕ} (hs : 1 ≤ s) : ∀ xs : List β,
    (stepBy s xs).length = (xs.length + s - 1) / s
  | [] => by
    rw [stepBy_nil]
    simp only [List.length_nil]
    exact (Nat.div_eq_of_lt (by omega)).symm
  | x :: xs => by
    rw [stepBy_cons]
    have ih := stepBy_length hs (xs.drop (s - 1))
    simp only [List.length_cons, List.length_drop, ih]
    rcases le_or_lt (s - 1) xs.length with h | h
    · have h1 : xs.length - (s - 1) + s - 1 = xs.length := by omega
      have h2 : xs.length + 1 + s - 1 = xs.length + s := by omega
      rw [h1, h2, Nat.add_div_right _ (by omega)]
    · have h1 : xs.length - (s - 1) = 0 := by omega
      have h2 : xs.length + 1 + s - 1 = xs.length + s := by omega
      rw [h1, h2, Nat.add_div_right _ (by omega),
        Nat.div_eq_of_lt (by omega), Nat.div_eq_of_lt (by omega)]
termination_by xs => xs.length
decreasing_by simp [List.length_drop]; omega

theorem stepBy_getElem? {s : ℕ} (hs : 1 ≤ s) : ∀ (xs : List β) (j : ℕ),
    (stepBy s xs)[j]? = xs[j * s]?
  | [], j => by rw [stepBy_nil]; simp
  | x :: xs, 0 => by rw [stepBy_cons]; simp
  | x :: xs, j + 1 => by
    rw [stepBy_cons]
    have ih := stepBy_getElem? hs (xs.drop (s - 1)) j
    have harith : (j + 1) * s = (s - 1) + (j * s) + 1 := by
      have : (j + 1) * s = j * s + s := by ring
      omega
    rw [List.getElem?_cons_succ, ih, List.getElem?_drop, harith,
      List.getElem?_cons_succ]
termination_by xs _ => xs.length
decreasing_by simp [List.length_drop]; omega

theorem chunks_nil (l : ℕ) : chunks l ([] : List β) = [] := by
  simp [chunks]

theorem chunks_append {l : ℕ} (hl : 1 ≤ l) {c : List β} (hc : c.length = l)
    (rest : List β) : chunks l (c ++ rest) = c :: chunks l rest := by
  cases c with
  | nil => simp at hc; omega
  | cons x xs =>
    have hx : xs.length = l - 1 := by
      simp only [List.length_cons] at hc; omega
    have hl' : l = xs.length + 1 := by omega
    simp only [List.cons_append, chunks]
    rw [hl', List.take_succ_cons, List.take_left' rfl, List.drop_left']
    omega

theorem chunks_flatten {l : ℕ} (hl : 1 ≤ l) :
    ∀ (cs : List (List β)), (∀ c ∈ cs, c.length = l) →
      chunks l cs.flatten = cs := by
  intro cs
  induction cs with
  | nil => intro _; simp [chunks_nil]
  | cons c cs ih =>
    intro h
    rw [List.flatten_cons, chunks_append hl (h c (List.mem_cons_self _ _)),
      ih fun c' hc' => h c' (List.mem_cons_of_mem _ hc')]

theorem windowsList_length (l : ℕ) (xs : List β) :
    (windowsList l xs).length = xs.length + 1 - l := by
  simp [windowsList]

theorem windowsList_getElem? {l i : ℕ} {xs : List β}
    (h : i < xs.length + 1 - l) :
    (windowsList l xs)[i]? = some ((xs.drop i).take l) := by
  simp [windowsList, List.getElem?_range h]

theorem windowsList_mem_length {l : ℕ} {xs : List β}
    {c : List β} (hc : c ∈ windowsList l xs) : c.length = l := by
  simp only [windowsList, List.mem_map, List.mem_range] at hc
  obtain ⟨i, hi, rfl⟩ := hc
  simp only [List.length_take, List.length_drop]
  omega

/-! ### Lemmas about flattening constant-width chunk lists -/

theorem flatten_length_const {l : ℕ} : ∀ (cs : List (List β)),
    (∀ c ∈ cs, c.length = l) → cs.flatten.length = cs.length * l := by
  intro cs
  induction cs with
  | nil => intro _; simp
  | cons c cs ih =>
    intro h
    simp only [List.flatten_cons, List.length_append, List.length_cons,
      ih fun c' hc' => h c' (List.mem_cons_of_mem _ hc'),
      h c (List.mem_cons_self _ _)]
    ring

theorem flatten_getElem?_const {l : ℕ} : ∀ (cs : List (List β)),
    (∀ c ∈ cs, c.length = l) → ∀ {j i : ℕ}, j < cs.length → i < l →
      cs.flatten[j * l + i]? = (cs.getD j [])[i]? := by
  intro cs
  induction cs with
  | nil => intro _ j i hj _; simp at hj
  | cons c cs ih =>
    intro h j i hj hi
    cases j with
    | zero =>
      have hc : c.length = l := h c (List.mem_cons_self _ _)
      simp only [Nat.zero_mul, Nat.zero_add, List.flatten_cons,
        List.getD_cons_zero]
      rw [List.getElem?_append_left (by omega)]
    | succ j =>
      have hc : c.length = l := h c (List.mem_cons_self _ _)
      have hj' : j < cs.length := by simp at hj; omega
      have harith : (j + 1) * l + i = c.length + (j * l + i) := by
        have h3 : (j + 1) * l = j * l + l := by ring
        omega
      simp only [List.flatten_cons, List.getD_cons_succ]
      rw [harith, List.getElem?_append_right (by omega)]
      have h2 : c.length + (j * l + i) - c.length = j * l + i := by omega
      rw [h2, ih (fun c' hc' => h c' (List.mem_cons_of_mem _ hc')) hj' hi]

/-! ### Lemmas about the accumulating fold of `periogram` -/

theorem range_map_getD (d : β) (acc : List β) :
    (List.range acc.length).map (fun i => acc.getD i d) = acc := by
  apply List.ext_getElem?
  intro n
  rcases lt_or_ge n acc.length with h | h
  · rw [List.getElem?_map, List.getElem?_range h,
      List.getElem?_eq_getElem h]
    simp [List.getD_eq_getElem?_getD, List.getElem?_eq_getElem h]
  · have h1 : (List.range acc.length)[n]? = none := by
      rw [List.getElem?_eq_none]
      simpa using h
    rw [List.getElem?_map, h1, List.getElem?_eq_none h]
    rfl

theorem psd_step_getD {acc : List α} {c : List (Cx α)}
    (hlc : acc.length ≤ c.length) {i : ℕ} (hi : i < acc.length) :
    ((acc.zip c).map fun p => p.1 + p.2.norm_sqr).getD i 0 =
      acc.getD i 0 + (c.getD i (Cx.mk 0 0)).norm_sqr := by
  have hi' : i < c.length := lt_of_lt_of_le hi hlc
  rw [List.getD_eq_getElem?_getD, List.getElem?_map, List.zip_eq_zipWith,
    List.getElem?_zipWith', List.getElem?_eq_getElem hi,
    List.getElem?_eq_getElem hi']
  simp [List.getD_eq_getElem?_getD, List.getElem?_eq_getElem, hi, hi']

theorem psd_foldl_eq : ∀ (cs : List (List (Cx α))) (acc : List α),
    (∀ c ∈ cs, acc.length ≤ c.length) →
    cs.foldl (fun a x => (a.zip x).map fun p => p.1 + p.2.norm_sqr) acc =
      (List.range acc.length).map fun i =>
        acc.getD i 0 + (cs.map fun c => (c.getD i (Cx.mk 0 0)).norm_sqr).sum := by
  intro cs
  induction cs with
  | nil =>
    intro acc _
    simp only [List.foldl_nil, List.map_nil, List.sum_nil, add_zero]
    exact (range_map_getD 0 acc).symm
  | cons c cs ih =>
    intro acc h
    have hc := h c (List.mem_cons_self _ _)
    have hstep : ((acc.zip c).map fun p => p.1 + p.2.norm_sqr).length
        = acc.length := by
      simp only [List.length_map, List.length_zip]
      omega
    rw [List.foldl_cons, ih _ (by
      intro c' hc'
      rw [hstep]
      exact h c' (List.mem_cons_of_mem _ hc')), hstep]
    apply List.map_congr_left
    intro i hi
    rw [List.mem_range] at hi
    rw [psd_step_getD hc hi, List.map_cons, List.sum_cons, add_assoc]

/-! ### Structure of the segmented and transformed buffers -/

theorem segmenting_eq (w : Welch α) :
    w.segmenting =
      ((stepBy (w.segment_size - roundToUsize ((w.segment_size : α) * w.overlap))
        (windowsList w.segment_size w.signal)).map fun segment =>
          (segment.zip w.window).map fun p => Cx.mk (p.1 * p.2) 0).flatten := rfl

theorem segment_mem_length {w : Welch α} (hw : w.window.length = w.segment_size)
    {s : ℕ} {c : List (Cx α)}
    (hc : c ∈ (stepBy s (windowsList w.segment_size w.signal)).map fun segment =>
        (segment.zip w.window).map fun p => Cx.mk (p.1 * p.2) 0) :
    c.length = w.segment_size := by
  rw [List.mem_map] at hc
  obtain ⟨seg, hseg, rfl⟩ := hc
  have hseglen : seg.length = w.segment_size :=
    windowsList_mem_length (stepBy_sublist_mem hseg)
  simp only [List.length_map, List.length_zip, hseglen, hw, Nat.min_self]

theorem chunks_segmenting {w : Welch α} (hl : 1 ≤ w.segment_size)
    (hw : w.window.length = w.segment_size) :
    chunks w.segment_size w.segmenting =
      (stepBy (w.segment_size - roundToUsize ((w.segment_size : α) * w.overlap))
        (windowsList w.segment_size w.signal)).map fun segment =>
          (segment.zip w.window).map fun p => Cx.mk (p.1 * p.2) 0 := by
  rw [segmenting_eq]
  exact chunks_flatten hl _ fun c hc => segment_mem_length hw hc

theorem chunks_dft {w : Welch α} {F : List (Cx α) → List (Cx α)}
    (hl : 1 ≤ w.segment_size) (hw : w.window.length = w.segment_size)
    (hF : ∀ xs, (F xs).length = xs.length) :
    chunks w.segment_size (w.dft F) =
      (chunks w.segment_size w.segmenting).map F := by
  simp only [Welch.dft]
  apply chunks_flatten hl
  intro c hc
  rw [List.mem_map] at hc
  obtain ⟨c', hc', rfl⟩ := hc
  rw [hF]
  rw [chunks_segmenting hl hw] at hc'
  exact segment_mem_length hw hc'

theorem dft_chunk_length {w : Welch α} {F : List (Cx α) → List (Cx α)}
    (hl : 1 ≤ w.segment_size) (hw : w.window.length = w.segment_size)
    (hF : ∀ xs, (F xs).length = xs.length) :
    ∀ c ∈ chunks w.segment_size (w.dft F), c.length = w.segment_size := by
  intro c hc
  rw [chunks_dft hl hw hF, List.mem_map] at hc
  obtain ⟨c', hc', rfl⟩ := hc
  rw [hF]
  rw [chunks_segmenting hl hw] at hc'
  exact segment_mem_length hw hc'

/-- Pointwise characterization of `periogram`: entry `i` is the sum over
the transformed segment chunks of the squared magnitude of entry `i` of
the chunk, with no further normalization. -/
theorem periogram_eq {w : Welch α} {F : List (Cx α) → List (Cx α)}
    (hl : 1 ≤ w.segment_size) (hw : w.window.length = w.segment_size)
    (hF : ∀ xs, (F xs).length = xs.length) :
    w.periogram F = (List.range (w.segment_size / 2)).map fun i =>
      ((chunks w.segment_size (w.dft F)).map fun c =>
        (c.getD i (Cx.mk 0 0)).norm_sqr).sum := by
  have hchunks : ∀ c ∈ chunks w.segment_size (w.dft F),
      (List.replicate (w.segment_size / 2) (0 : α)).length ≤ c.length := by
    intro c hc
    rw [dft_chunk_length hl hw hF c hc, List.length_replicate]
    exact Nat.div_le_self _ _
  simp only [Welch.periogram]
  rw [psd_foldl_eq _ _ hchunks, List.length_replicate]
  apply List.map_congr_left
  intro i hi
  rw [List.mem_range] at hi
  rw [List.getD_eq_getElem?_getD, List.getElem?_replicate_of_lt hi]
  simp

theorem psd_foldl_nonneg : ∀ (cs : List (List (Cx α))) (acc : List α),
    (∀ a ∈ acc, 0 ≤ a) →
    ∀ x ∈ cs.foldl (fun a x => (a.zip x).map fun p => p.1 + p.2.norm_sqr) acc,
      0 ≤ x := by
  intro cs
  induction cs with
  | nil => intro acc h x hx; exact h x hx
  | cons c cs ih =>
    intro acc h x hx
    rw [List.foldl_cons] at hx
    refine ih _ ?_ x hx
    intro a ha
    rw [List.mem_map] at ha
    obtain ⟨p, hp, rfl⟩ := ha
    have h1 : 0 ≤ p.1 := h p.1 (List.mem_zip hp).1
    have h2 : 0 ≤ p.2.norm_sqr := by
      have := mul_self_nonneg p.2.re
      have := mul_self_nonneg p.2.im
      simp only [Cx.norm_sqr]
      linarith
    linarith

theorem take_map_norm_sqr {m : ℕ} {c : List (Cx α)} (hm : m ≤ c.length) :
    (c.take m).map Cx.norm_sqr =
      (List.range m).map fun i => (c.getD i (Cx.mk 0 0)).norm_sqr := by
  apply List.ext_getElem?
  intro t
  rcases lt_or_ge t m with h | h
  · have ht : t < c.length := lt_of_lt_of_le h hm
    rw [List.getElem?_map, List.getElem?_take, if_pos h,
      List.getElem?_map, List.getElem?_range h,
      List.getElem?_eq_getElem ht]
    simp [List.getD_eq_getElem?_getD, List.getElem?_eq_getElem ht]
  · have h1 : ((c.take m).map Cx.norm_sqr)[t]? = none := by
      rw [List.getElem?_eq_none]
      simp only [List.length_map, List.length_take]
      omega
    have h2 : ((List.range m).map fun i =>
        (c.getD i (Cx.mk 0 0)).norm_sqr)[t]? = none := by
      rw [List.getElem?_eq_none]
      simp only [List.length_map, List.length_range]
      omega
    rw [h1, h2]

/-! ### Concrete evaluations over `ℚ` used by the witnesses -/

theorem wEx_l : wEx.segment_size = 3 := truncToUsize_eq (by norm_num)

theorem wEx_hl : 1 ≤ wEx.segment_size := by rw [wEx_l]; omega

theorem wEx_hw : wEx.window.length = wEx.segment_size := by
  simp [wEx, Builder.build, oneWeights, One.new]

theorem wEx_overlap : wEx.overlap = 1 / 2 := rfl

theorem wEx_siglen : wEx.signal.length = 8 := rfl

theorem wEx_round : roundToUsize (((3 : ℕ) : ℚ) * (1 / 2)) = 2 :=
  roundToUsize_eq (by norm_num) (by push_cast; norm_num)

theorem wEx_stride :
    wEx.segment_size - roundToUsize ((wEx.segment_size : ℚ) * wEx.overlap) = 1 := by
  rw [wEx_overlap, wEx_l, wEx_round]

theorem wEx_eval : wEx.periogram (fun xs => xs) = [91] := by
  have h0 : segment_size ([1, 2, 3, 4, 5, 6, 7, 8] : List ℚ).length 4 (1 / 2 : ℚ) = 3 :=
    truncToUsize_eq (by norm_num)
  have h1 : roundToUsize (((3 : ℕ) : ℚ) * (1 / 2)) = 2 := wEx_round
  simp only [wEx, Welch.periogram, Welch.dft, Welch.segmenting, Builder.build,
    h0, h1]
  norm_num [windowsList, stepBy, chunks, Cx.norm_sqr, oneWeights, One.new,
    List.range_succ, List.zip_cons_cons, List.replicate_succ]

theorem wBad_l : wBad.segment_size = 8 := truncToUsize_eq (by norm_num [bBad])

theorem wBad_overlap : wBad.overlap = 1 / 2 := rfl

theorem wBad_siglen : wBad.signal.length = 4 := rfl

theorem wBad_round : roundToUsize (((8 : ℕ) : ℚ) * (1 / 2)) = 4 :=
  roundToUsize_eq (by norm_num) (by push_cast; norm_num)

/-! ### The claims -/

/-- Claim C1: for every signal length `n`, segment count `k ≥ 1` and
overlap fraction `a ∈ [0,1)`, `segment_size n k a` equals the truncation
of `n / (k·(1-a)+a)` (the `ℤ`-valued floor, with no loss in the cast
back from `usize`); and `segment_size n 1 1 = n` for every `n`. -/
theorem C1_segment_size_formula (n k : ℕ) (a : α) (hk : 1 ≤ k)
    (h0 : 0 ≤ a) (h1 : a < 1) :
    (segment_size n k a : ℤ) = ⌊(n : α) / ((k : α) * (1 - a) + a)⌋ ∧
      segment_size n 1 (1 : α) = n := by
  constructor
  · have hk' : (1 : α) ≤ (k : α) := by exact_mod_cast hk
    have hden : (0 : α) < (k : α) * (1 - a) + a := by nlinarith
    have hx : (0 : α) ≤ (n : α) / ((k : α) * (1 - a) + a) :=
      div_nonneg (by positivity) (le_of_lt hden)
    simp [segment_size, truncToUsize,
      Int.toNat_of_nonneg (Int.floor_nonneg.mpr hx)]
  · have hden : ((1 : ℕ) : α) * (1 - (1 : α)) + 1 = 1 := by norm_num
    simp [segment_size, truncToUsize, hden]

/-- Witness for C1 at `n = 128`, `k = 4`, `a = 1/2` over `ℚ`. -/
theorem C1_segment_size_formula_witness :
    (segment_size 128 4 (1 / 2 : ℚ) : ℤ) =
      ⌊((128 : ℕ) : ℚ) / (((4 : ℕ) : ℚ) * (1 - 1 / 2) + 1 / 2)⌋ ∧
      segment_size 128 1 (1 : ℚ) = 128 :=
  C1_segment_size_formula 128 4 (1 / 2 : ℚ) (by norm_num) (by norm_num)
    (by norm_num)

/-- Claim C3 (the spec requires `build` to reject invalid configurations;
the code performs no validation): with the invalid configuration
`n_segment = 0`, `overlap = 1/2`, signal `[1,2,3,4]`, `build` succeeds —
it returns an estimator whose `segment_size` is `8`, exceeding the
signal length `4` — and the pipeline reaches segmentation and returns a
periodogram `[0,0,0,0]` instead of failing at construction. -/
theorem C3_build_does_not_validate :
    wBad.segment_size = 8 ∧ wBad.signal.length = 4 ∧
      wBad.periogram (fun xs => xs) = [0, 0, 0, 0] := by
  refine ⟨wBad_l, rfl, ?_⟩
  have h0 : segment_size ([1, 2, 3, 4] : List ℚ).length 0 (1 / 2 : ℚ) = 8 :=
    truncToUsize_eq (by norm_num)
  simp only [wBad, bBad, Builder.build, Welch.periogram, Welch.dft,
    Welch.segmenting, h0]
  norm_num [windowsList, stepBy_nil, chunks_nil, List.replicate_succ]

/-- Claim C5: for every validly configured estimator (positive segment
size, window of matching length, length-preserving DFT), the sequence
returned by `periogram` has length exactly `segment_size / 2`,
independently of `n_segment`, `overlap`, signal and of how many segments
were extracted. -/
theorem C5_periogram_length (w : Welch α) (F : List (Cx α) → List (Cx α))
    (hl : 1 ≤ w.segment_size) (hw : w.window.length = w.segment_size)
    (hF : ∀ xs, (F xs).length = xs.length) :
    (w.periogram F).length = w.segment_size / 2 := by
  rw [periogram_eq hl hw hF]
  simp

/-- Witness for C5 at the concrete estimator `wEx`. -/
theorem C5_periogram_length_witness :
    (wEx.periogram (fun xs => xs)).length = wEx.segment_size / 2 :=
  C5_periogram_length wEx (fun xs => xs) wEx_hl wEx_hw (fun xs => rfl)

/-- Claim C6: every element of the sequence returned by `periogram` is
nonnegative (each is a sum of squared magnitudes). -/
theorem C6_periogram_nonneg (w : Welch α) (F : List (Cx α) → List (Cx α))
    (x : α) (hx : x ∈ w.periogram F) : 0 ≤ x := by
  simp only [Welch.periogram] at hx
  refine psd_foldl_nonneg _ _ ?_ x hx
  intro a ha
  rw [List.eq_of_mem_replicate ha]

/-- Witness for C6: the single entry `91` of `wEx`'s periodogram is a
member and is nonnegative. -/
theorem C6_periogram_nonneg_witness :
    (91 : ℚ) ∈ wEx.periogram (fun xs => xs) ∧ (0 : ℚ) ≤ 91 :=
  ⟨by rw [wEx_eval]; exact List.mem_singleton_self _,
    C6_periogram_nonneg wEx (fun xs => xs) 91
      (by rw [wEx_eval]; exact List.mem_singleton_self _)⟩

/-- Claim C7: `periogram` is deterministic and mutation-free.  In the
state-passing reading of the `&self` call the receiver (in particular
the borrowed signal) is returned unchanged, a second call on the
returned receiver produces the same result, and the output depends only
on the estimator's fields: two estimators with equal fields yield equal
periodograms. -/
theorem C7_determinism (w : Welch α) (F : List (Cx α) → List (Cx α)) :
    (w.periogramRun F).2 = w ∧
    (w.periogramRun F).2.signal = w.signal ∧
    ((w.periogramRun F).2.periogramRun F).1 = (w.periogramRun F).1 ∧
    ∀ w' : Welch α, w.n_segment = w'.n_segment → w.overlap = w'.overlap →
      w.segment_size = w'.segment_size → w.signal = w'.signal →
      w.window = w'.window → w.periogram F = w'.periogram F := by
  refine ⟨rfl, rfl, rfl, ?_⟩
  intro w' _ h1 h2 h3 h4
  simp only [Welch.periogram, Welch.dft, Welch.segmenting, h1, h2, h3, h4]

/-- Witness for C7 at the concrete estimator `wEx`. -/
theorem C7_determinism_witness :
    ((wEx.periogramRun (fun xs => xs)).2.periogramRun (fun xs => xs)).1 =
      (wEx.periogramRun (fun xs => xs)).1 ∧
    wEx.periogram (fun xs => xs) = wEx.periogram (fun xs => xs) :=
  ⟨(C7_determinism wEx (fun xs => xs)).2.2.1,
    (C7_determinism wEx (fun xs => xs)).2.2.2 wEx rfl rfl rfl rfl rfl⟩

/-- Claim C9: the rectangular window `One` constructed with length `l`
yields exactly `l` weights, all equal to `1`; and for any window variant
satisfying the length contract, the estimator built with it has a window
of length exactly `segment_size`. -/
theorem C9_window_contract (l : ℕ) (W : ℕ → List α) (b : Builder α)
    (hW : ∀ m, (W m).length = m) :
    ((One.new l : One α).weights.length = l ∧
      ∀ x ∈ (One.new l : One α).weights, x = 1) ∧
    (b.build W).window.length = (b.build W).segment_size := by
  refine ⟨⟨by simp [One.new], ?_⟩, ?_⟩
  · intro x hx
    exact List.eq_of_mem_replicate hx
  · simp [Builder.build, hW]

/-- Witness for C9 at `l = 5`, the `One` window variant and a concrete
builder over `ℚ`. -/
theorem C9_window_contract_witness :
    (((One.new 5 : One ℚ).weights.length = 5 ∧
      ∀ x ∈ (One.new 5 : One ℚ).weights, x = 1)) ∧
    ((Builder.new ([1, 2, 3] : List ℚ)).build oneWeights).window.length =
      ((Builder.new ([1, 2, 3] : List ℚ)).build oneWeights).segment_size :=
  C9_window_contract 5 oneWeights (Builder.new [1, 2, 3])
    (fun m => by simp [oneWeights, One.new])

/-- Claim C2: for a validly configured estimator, `periogram` chunks the
transformed buffer into groups of `segment_size`, and for each bin
`i < segment_size / 2` returns the plain sum over all segment chunks of
the squared magnitude of entry `i` of the chunk — no division by the
number of segments, no other normalization — the output having exactly
`segment_size / 2` entries. -/
theorem C2_periogram_raw_sum (w : Welch α) (F : List (Cx α) → List (Cx α))
    (hl : 1 ≤ w.segment_size) (hw : w.window.length = w.segment_size)
    (hF : ∀ xs, (F xs).length = xs.length) :
    (w.periogram F).length = w.segment_size / 2 ∧
    ∀ i < w.segment_size / 2, (w.periogram F).getD i 0 =
      ((chunks w.segment_size (w.dft F)).map fun c =>
        (c.getD i (Cx.mk 0 0)).norm_sqr).sum := by
  rw [periogram_eq hl hw hF]
  constructor
  · simp
  · intro i hi
    rw [List.getD_eq_getElem?_getD, List.getElem?_map, List.getElem?_range hi]
    rfl

/-- Witness for C2 at the concrete estimator `wEx` and the identity
transform. -/
theorem C2_periogram_raw_sum_witness :
    (wEx.periogram (fun xs => xs)).length = wEx.segment_size / 2 ∧
    ∀ i < wEx.segment_size / 2, (wEx.periogram (fun xs => xs)).getD i 0 =
      ((chunks wEx.segment_size (wEx.dft fun xs => xs)).map fun c =>
        (c.getD i (Cx.mk 0 0)).norm_sqr).sum :=
  C2_periogram_raw_sum wEx (fun xs => xs) wEx_hl wEx_hw (fun xs => rfl)

/-- Claim C10: for an estimator whose segment size is positive but
exceeds the signal length (and whose stride is positive, as Rust's
`step_by` panics on stride `0` regardless of the segment count), no full
window fits, zero segments are extracted, and `periogram` does not fail:
it returns the fold's initial accumulator, `segment_size / 2` zeros. -/
theorem C10_zero_segments (w : Welch α) (F : List (Cx α) → List (Cx α))
    (hl : 1 ≤ w.segment_size) (hn : w.signal.length < w.segment_size)
    (hs : 1 ≤ w.segment_size - roundToUsize ((w.segment_size : α) * w.overlap)) :
    w.periogram F = List.replicate (w.segment_size / 2) 0 := by
  have hwin : windowsList w.segment_size w.signal = [] := by
    have h0 : (windowsList w.segment_size w.signal).length = 0 := by
      rw [windowsList_length]; omega
    exact List.eq_nil_of_length_eq_zero h0
  have hseg : w.segmenting = [] := by
    rw [segmenting_eq, hwin, stepBy_nil, List.map_nil, List.flatten_nil]
  simp only [Welch.periogram, Welch.dft, hseg, chunks_nil, List.map_nil,
    List.flatten_nil, List.foldl_nil]

/-- Witness for C10 at the concrete estimator `wBad` (segment size 8,
signal length 4, stride 4). -/
theorem C10_zero_segments_witness :
    wBad.periogram (fun xs => xs) =
      List.replicate (wBad.segment_size / 2) 0 :=
  C10_zero_segments wBad (fun xs => xs) (by rw [wBad_l]; omega)
    (by rw [wBad_siglen, wBad_l]; omega)
    (by rw [wBad_overlap, wBad_l, wBad_round]; omega)

/-- Claim C4: for a validly configured estimator with signal length `n`,
segment size `l` and overlap `a`, `segmenting` uses the stride
`s = l - round(l·a)`, takes the windows of width `l` starting at
`0, s, 2s, …` up to the last start index bounded by `n - l`
(`k = (n-l)/s + 1` of them), multiplies each of the `l` samples of a
window with the weight of the same index, emits the product as the real
part of a complex value with zero imaginary part, and returns the
segments concatenated into one flat sequence of length `k · l`. -/
theorem C4_segmenting_structure (w : Welch α) (s k : ℕ)
    (hl : 1 ≤ w.segment_size)
    (hw : w.window.length = w.segment_size)
    (hn : w.segment_size ≤ w.signal.length)
    (hsdef : s = w.segment_size - roundToUsize ((w.segment_size : α) * w.overlap))
    (hs : 1 ≤ s)
    (hk : k = (w.signal.length - w.segment_size) / s + 1) :
    w.segmenting.length = k * w.segment_size ∧
    ∀ j i : ℕ, j < k → i < w.segment_size →
      w.segmenting[j * w.segment_size + i]? =
        some (Cx.mk (w.signal.getD (j * s + i) 0 * w.window.getD i 0) 0) := by
  subst hk
  have hseg : w.segmenting =
      ((stepBy s (windowsList w.segment_size w.signal)).map fun segment =>
        (segment.zip w.window).map fun p => Cx.mk (p.1 * p.2) 0).flatten := by
    rw [segmenting_eq, ← hsdef]
  have hmem : ∀ c ∈ (stepBy s (windowsList w.segment_size w.signal)).map
      fun segment => (segment.zip w.window).map fun p => Cx.mk (p.1 * p.2) 0,
      c.length = w.segment_size := fun c hc => segment_mem_length hw hc
  have hwlen : (windowsList w.segment_size w.signal).length =
      w.signal.length + 1 - w.segment_size := windowsList_length _ _
  have hcount : (stepBy s (windowsList w.segment_size w.signal)).length =
      (w.signal.length - w.segment_size) / s + 1 := by
    rw [stepBy_length hs, hwlen]
    have h1 : w.signal.length + 1 - w.segment_size + s - 1 =
        (w.signal.length - w.segment_size) + s := by omega
    rw [h1, Nat.add_div_right _ (by omega)]
  constructor
  · rw [hseg, flatten_length_const _ hmem, List.length_map, hcount]
  · intro j i hj hi
    have h2 : j ≤ (w.signal.length - w.segment_size) / s :=
      Nat.lt_succ_iff.mp hj
    have hjk : j * s ≤ w.signal.length - w.segment_size :=
      le_trans (Nat.mul_le_mul_right s h2) (Nat.div_mul_le_self _ _)
    have hbound : j * s + i < w.signal.length := by omega
    rw [hseg, flatten_getElem?_const _ hmem
      (by rw [List.length_map, hcount]; exact hj) hi]
    have hgetj : ((stepBy s (windowsList w.segment_size w.signal)).map
        fun segment =>
          (segment.zip w.window).map fun p => Cx.mk (p.1 * p.2) 0).getD j [] =
        (((w.signal.drop (j * s)).take w.segment_size).zip w.window).map
          fun p => Cx.mk (p.1 * p.2) 0 := by
      rw [List.getD_eq_getElem?_getD, List.getElem?_map, stepBy_getElem? hs,
        windowsList_getElem? (by omega)]
      rfl
    rw [hgetj]
    have hseg_i : ((w.signal.drop (j * s)).take w.segment_size)[i]? =
        some (w.signal.getD (j * s + i) 0) := by
      rw [List.getElem?_take, if_pos hi, List.getElem?_drop,
        List.getElem?_eq_getElem hbound]
      simp [List.getD_eq_getElem?_getD, List.getElem?_eq_getElem hbound]
    have hwin_i : w.window[i]? = some (w.window.getD i 0) := by
      have hiw : i < w.window.length := by rw [hw]; exact hi
      simp [List.getElem?_eq_getElem hiw, List.getD_eq_getElem?_getD]
    rw [List.getElem?_map, List.zip_eq_zipWith, List.getElem?_zipWith',
      hseg_i, hwin_i]
    rfl

/-- Witness for C4 at the concrete estimator `wEx` (stride 1, 6
segments of width 3). -/
theorem C4_segmenting_structure_witness :
    wEx.segmenting.length = 6 * wEx.segment_size ∧
    ∀ j i : ℕ, j < 6 → i < wEx.segment_size →
      wEx.segmenting[j * wEx.segment_size + i]? =
        some (Cx.mk (wEx.signal.getD (j * 1 + i) 0 * wEx.window.getD i 0) 0) :=
  C4_segmenting_structure wEx 1 6 wEx_hl wEx_hw
    (by rw [wEx_siglen, wEx_l]; omega) wEx_stride.symm (le_refl 1)
    (by rw [wEx_siglen, wEx_l])

/-- Claim C8: for a nonempty signal, the estimator built with
`overlap = 0` and `n_segment = 1` has `segment_size` equal to the signal
length, the stride equals the segment size, exactly one segment — the
whole windowed signal — is extracted, and `periogram` is the
squared-magnitude spectrum of that single windowed segment (its first
`segment_size / 2` bins), with no accumulation across further
segments. -/
theorem C8_single_segment (sig : List α) (W : ℕ → List α)
    (F : List (Cx α) → List (Cx α)) (hn : 1 ≤ sig.length)
    (hW : (W sig.length).length = sig.length)
    (hF : ∀ xs, (F xs).length = xs.length) :
    ((Builder.mk 1 0 sig).build W).segment_size = sig.length ∧
    sig.length - roundToUsize ((sig.length : α) * 0) = sig.length ∧
    stepBy sig.length (windowsList sig.length sig) = [sig] ∧
    ((Builder.mk 1 0 sig).build W).periogram F =
      ((F ((sig.zip (W sig.length)).map fun p => Cx.mk (p.1 * p.2) 0)).take
        (sig.length / 2)).map Cx.norm_sqr := by
  have ha : ((Builder.mk 1 0 sig).build W).segment_size = sig.length := by
    have hden : ((1 : ℕ) : α) * (1 - 0) + 0 = 1 := by norm_num
    show segment_size sig.length 1 (0 : α) = sig.length
    rw [segment_size, hden, div_one]
    simp [truncToUsize]
  have hb : roundToUsize ((sig.length : α) * 0) = 0 := by
    rw [mul_zero]
    exact roundToUsize_eq (le_refl 0) (by norm_num)
  have hstride : sig.length - roundToUsize ((sig.length : α) * 0) = sig.length := by
    rw [hb, Nat.sub_zero]
  have hwinlist : windowsList sig.length sig = [sig] := by
    rw [windowsList]
    have h1 : sig.length + 1 - sig.length = 1 := by omega
    rw [h1]
    simp [List.range_succ, List.take_length]
  have hd : stepBy sig.length (windowsList sig.length sig) = [sig] := by
    rw [hwinlist, stepBy_cons]
    simp [stepBy_nil]
  refine ⟨ha, hstride, hd, ?_⟩
  have hwin : ((Builder.mk 1 0 sig).build W).window = W sig.length := by
    have h0 : ((Builder.mk 1 0 sig).build W).window =
        W ((Builder.mk 1 0 sig).build W).segment_size := rfl
    rw [h0, ha]
  have hw : ((Builder.mk 1 0 sig).build W).window.length =
      ((Builder.mk 1 0 sig).build W).segment_size := by
    rw [hwin, hW, ha]
  have hl : 1 ≤ ((Builder.mk 1 0 sig).build W).segment_size := by
    rw [ha]; exact hn
  have hov : ((Builder.mk 1 0 sig).build W).overlap = (0 : α) := rfl
  have hsig : ((Builder.mk 1 0 sig).build W).signal = sig := rfl
  rw [periogram_eq hl hw hF, chunks_dft hl hw hF, chunks_segmenting hl hw,
    hov, hsig, hwin, ha, hstride, hd]
  have hlen_f : (F ((sig.zip (W sig.length)).map fun p =>
      Cx.mk (p.1 * p.2) 0)).length = sig.length := by
    rw [hF]
    simp only [List.length_map, List.length_zip, hW, Nat.min_self]
  rw [take_map_norm_sqr (by rw [hlen_f]; exact Nat.div_le_self _ _)]
  simp

/-- Witness for C8 with the signal `[1,2,3,4]` over `ℚ`, the
rectangular window and the identity transform. -/
theorem C8_single_segment_witness :
    ((Builder.mk 1 0 ([1, 2, 3, 4] : List ℚ)).build oneWeights).segment_size =
      ([1, 2, 3, 4] : List ℚ).length ∧
    ([1, 2, 3, 4] : List ℚ).length -
      roundToUsize ((([1, 2, 3, 4] : List ℚ).length : ℚ) * 0) =
      ([1, 2, 3, 4] : List ℚ).length ∧
    stepBy ([1, 2, 3, 4] : List ℚ).length
      (windowsList ([1, 2, 3, 4] : List ℚ).length ([1, 2, 3, 4] : List ℚ)) =
      [([1, 2, 3, 4] : List ℚ)] ∧
    ((Builder.mk 1 0 ([1, 2, 3, 4] : List ℚ)).build oneWeights).periogram
        (fun xs => xs) =
      (((([1, 2, 3, 4] : List ℚ).zip
          (oneWeights ([1, 2, 3, 4] : List ℚ).length)).map (fun p =>
            Cx.mk (p.1 * p.2) 0)).take
        (([1, 2, 3, 4] : List ℚ).length / 2)).map Cx.norm_sqr :=
  C8_single_segment [1, 2, 3, 4] oneWeights (fun xs => xs) (by norm_num)
    (by simp [oneWeights, One.new]) (fun xs => rfl)

end welch
